import Mathlib

set_option maxHeartbeats 1000000

/- Verification of the OT engine in ot.py: the operation algebra
   (Insert/Delete with apply, after, inverse and the conflicts predicate),
   the wire codec (encode_text, decode_text, decode_ot, Edit.from_line),
   and the per-connection shadow history (Shadow.new_submission,
   EditServer.submission_atomic, the parent validation in on_read).

   Documents are byte strings; they are modelled as lists of naturals.
   Python slice bounds clamp to the ends of the sequence, which is exactly
   the behaviour of List.take and List.drop, so Insert.apply and
   Delete.apply translate directly.  Python integers here are naturals
   (indices and counts coming off the wire are decimals); every
   subtraction performed by the source is guarded by the branch condition
   under which it runs, so truncated Nat subtraction agrees with Python
   integer subtraction on every reachable branch. -/

/-- The two operation variants of ot.py (classes Insert and Delete).
A Delete carries optional recovered text; `none` marks it non-invertible
(Delete.__init__ stores text, which may be None). -/
inductive Op where
  | insert (idx : Nat) (text : List Nat)
  | delete (idx : Nat) (nchars : Nat) (text : Option (List Nat))
deriving DecidableEq

/-- Insert.apply: `text[:idx] + self.text + text[idx:]`.
    Delete.apply: `text[:idx] + text[idx + nchars:]`. -/
def Op.apply : Op → List Nat → List Nat
  | .insert i t, doc => doc.take i ++ t ++ doc.drop i
  | .delete i n _, doc => doc.take i ++ doc.drop (i + n)

/-- Insert.after and Delete.after from ot.py, branch for branch.  The
source returns None exactly when a Delete is wholly subsumed by the other
Delete; that is the `none` result here. -/
def Op.after : Op → Op → Option Op
  | .insert si t, .insert oi u =>
    if oi > si then some (.insert si t)
    else if oi = si then some (.insert (si + u.length) t)
    else some (.insert (si + u.length) t)
  | .insert si t, .delete oi on2 _ =>
    if oi > si then some (.insert si t)
    else if oi + on2 < si then some (.insert (si - on2) t)
    else some (.insert oi t)
  | .delete si sn tx, .insert oi u =>
    if oi > si + sn then some (.delete si sn tx)
    else if oi < si then some (.delete (si + u.length) sn tx)
    else if oi = si then some (.delete (si + u.length) sn tx)
    else if oi = si + sn then some (.delete si sn tx)
    else some (.delete si (sn + u.length) none)
  | .delete si sn tx, .delete oi on2 _ =>
    if oi ≥ si + sn then some (.delete si sn tx)
    else if oi + on2 ≤ si then some (.delete (si - on2) sn tx)
    else if oi ≤ si then
      if oi + on2 ≥ si + sn then none
      else some (.delete oi (sn - (on2 - (si - oi))) none)
    else
      if oi + on2 > si + sn then some (.delete si (oi - si) none)
      else some (.delete si (sn - on2) none)

/-- Insert.inverse always succeeds; Delete.inverse asserts that the
recovered text is present (`assert self.text is not None`), so a Delete
with no text yields `none` (the AssertionError). -/
def Op.inverse : Op → Option Op
  | .insert i t => some (.delete i t.length (some t))
  | .delete i _ tx => tx.map fun t => Op.insert i t

/-- The conflicts predicate of ot.py.  For two Deletes the source first
swaps so that `a.idx <= b.idx` and then tests `a.idx + a.nchars >= b.idx`;
for the mixed case it tests whether the insert index falls inside the
closed interval of the delete, in either argument order. -/
def conflicts : Op → Op → Bool
  | .insert ai _, .insert bi _ => ai == bi
  | .delete ai an _, .delete bi bn _ =>
    if ai > bi then decide (bi + bn ≥ ai) else decide (ai + an ≥ bi)
  | .insert ii _, .delete di dn _ => decide (ii ≥ di) && decide (ii ≤ di + dn)
  | .delete di dn _, .insert ii _ => decide (ii ≥ di) && decide (ii ≤ di + dn)

/-- The edge-touching conflicts: an insert sitting exactly at either end
of a delete, or two deletes whose closed intervals meet only at an
endpoint.  These are the conflict branches of Delete.after that keep
the recovered text of self instead of dropping it. -/
def boundaryConflict : Op → Op → Bool
  | .delete si sn _, .insert oi _ => oi == si || oi == si + sn
  | .delete si sn _, .delete oi on2 _ => oi == si + sn || oi + on2 == si
  | _, _ => false

/-- The applicability invariant of the spec: an Insert needs
`idx <= len(doc)`, a Delete needs `idx + nchars <= len(doc)`. -/
def applicable : Op → List Nat → Prop
  | .insert i _, doc => i ≤ doc.length
  | .delete i n _, doc => i + n ≤ doc.length

instance : ∀ (op : Op) (doc : List Nat), Decidable (applicable op doc)
  | .insert i _, doc => inferInstanceAs (Decidable (i ≤ doc.length))
  | .delete i n _, doc => inferInstanceAs (Decidable (i + n ≤ doc.length))

/-- Left fold of Op.apply over a list of operations, oldest first. -/
def applyOps (ops : List Op) (doc : List Nat) : List Nat :=
  ops.foldl (fun d op => Op.apply op d) doc

/-- Each operation of the list is applicable at the document state
produced by applying its predecessors. -/
def chainValid : List Nat → List Op → Prop
  | _, [] => True
  | d, op :: ops => applicable op d ∧ chainValid (Op.apply op d) ops

/- ----------------------------------------------------------------- -/
/- Wire codec: encode_text, decode_text, decode_ot.                  -/
/- ----------------------------------------------------------------- -/

/-- Python exceptions that the translated functions can raise. -/
inductive PyErr where
  | valueError
  | typeError
  | nameError
  | attributeError
deriving DecidableEq

/-- Lowercase hex digit of a value below 16 (48..57 are the digits,
87 + d gives the letters a..f). -/
def hexDigit (d : Nat) : Nat := if d < 10 then 48 + d else 87 + d

/-- A `\xNN` escape: backslash, letter x, two lowercase hex digits. -/
def hexEsc (b : Nat) : List Nat := [92, 120, hexDigit (b / 16), hexDigit (b % 16)]

/-- The `encoder` dict of ot.py.  Bytes 0, 8, 9, 10, 13 and 92 map to the
two-byte escapes, bytes 1-7, 11, 12, 14-31 and 127 map to `\xNN` with
lowercase hex, and every other byte is absent from the table. -/
def encoder (b : Nat) : Option (List Nat) :=
  if b = 0 then some [92, 48]
  else if b = 8 then some [92, 98]
  else if b = 9 then some [92, 116]
  else if b = 10 then some [92, 110]
  else if b = 13 then some [92, 114]
  else if b = 92 then some [92, 92]
  else if (1 ≤ b ∧ b ≤ 7) ∨ b = 11 ∨ b = 12 ∨ (14 ≤ b ∧ b ≤ 31) ∨ b = 127 then
    some (hexEsc b)
  else none

/-- encode_text: escape each byte through the encoder table, passing
unlisted bytes through verbatim. -/
def encode_text (msg : List Nat) : List Nat :=
  msg.foldl (fun out b => out ++ ((encoder b).getD [b])) []

/-- decode_text of ot.py.  The source handles the two-character escapes,
then for a `\x` escape checks that two bytes remain and immediately
reads `wire_byte[i]` - but the only name in scope is `wire_byts`, so
every `\xNN` escape with its two hex bytes present raises NameError
before any hex digit is examined.  Escapes other than the known ones
raise ValueError, as does a trailing backslash or a truncated `\x`. -/
def decode_text : List Nat → Except PyErr (List Nat)
  | [] => .ok []
  | c0 :: rest =>
    if c0 ≠ 92 then (decode_text rest).map fun l => c0 :: l
    else
      match rest with
      | [] => .error .valueError
      | c1 :: rest2 =>
        if c1 = 48 then (decode_text rest2).map fun l => 0 :: l
        else if c1 = 98 then (decode_text rest2).map fun l => 8 :: l
        else if c1 = 116 then (decode_text rest2).map fun l => 9 :: l
        else if c1 = 110 then (decode_text rest2).map fun l => 10 :: l
        else if c1 = 114 then (decode_text rest2).map fun l => 13 :: l
        else if c1 ≠ 120 then .error .valueError
        else
          match rest2 with
          | [] => .error .valueError
          | [_] => .error .valueError
          | _ :: _ :: _ => .error .nameError

/-- Python int() over a plain decimal byte string (the only form the
protocol produces; int() would additionally accept whitespace and a
sign, which never appear on this wire). -/
def parseNat (l : List Nat) : Option Nat :=
  if !l.isEmpty && l.all (fun c => 48 ≤ c && c ≤ 57) then
    some (l.foldl (fun a c => 10 * a + (c - 48)) 0)
  else none

/-- decode_ot of ot.py.  For `i` it builds `Insert(int(idx), decode_text(arg))`.
For `d` the source evaluates `Delete(int(idx_text), int(arg_text))`, but
Delete.__init__ takes three required positional arguments (idx, nchars,
text) and no default, so once both ints parse the call itself raises
TypeError.  An unknown optype falls off the end of the function and
returns None. -/
def decode_ot (typ idx arg : List Nat) : Except PyErr (Option Op) :=
  if typ = [105] then
    match parseNat idx with
    | none => .error .valueError
    | some i => (decode_text arg).map fun t => some (.insert i t)
  else if typ = [100] then
    match parseNat idx, parseNat arg with
    | some _, some _ => .error .typeError
    | _, _ => .error .valueError
  else .ok none

/- ----------------------------------------------------------------- -/
/- Ids, edits and the per-connection shadow. -/
/- ----------------------------------------------------------------- -/

/-- Editor identities.  The authoritative history uses the string
"server" as editor; wire-decoded ids use small integers.  The string
and any integer are distinct values (Python "server" == 0 is False). -/
inductive Editor where
  | srv
  | num (n : Nat)
deriving DecidableEq

/-- class ID: a sequence number and an editor.  ID.__eq__ compares both
fields, which structural equality reproduces. -/
structure ID where
  id : Nat
  editor : Editor
deriving DecidableEq

/-- The values that flow through Edit.submitted_id in the source: the
string "server" (the sentinel and initial edits), a bare editor integer
(what Edit.from_line stores), or a full ID (what test_server.py passes
and what the echo-drop filter of new_submission expects). -/
inductive SubmittedId where
  | srvTag
  | editorNum (n : Nat)
  | editId (i : ID)
deriving DecidableEq

/-- class Edit: an operation with identity and parentage. -/
structure Edit where
  ot : Op
  id : ID
  parent : ID
  submittedId : SubmittedId
deriving DecidableEq

/-- class EditMod: a rebased operation plus the original edit it came from. -/
structure EditMod where
  ot : Op
  old : Edit
deriving DecidableEq

/-- class Shadow.  submission_ids is a Python set mutated only by add();
it is modelled as the list of added ids (membership is all that is ever
asked of it). -/
structure Shadow where
  dirty : Bool
  lastKnownId : ID
  submissions : List Edit
  submissionIds : List ID
  tail : List EditMod
deriving DecidableEq

/-- Shadow.__init__(base_id). -/
def Shadow.init (baseId : ID) : Shadow :=
  ⟨false, baseId, [], [], []⟩

/-- Membership test `n.submitted_id not in self.submission_ids` (without
the negation).  The set holds ID objects; a submitted_id that is the
string "server" or a bare int hashes like a string or an int, never like
an ID tuple, so the membership test yields False for those variants.
(If a hash collision did occur, ID.__eq__ would read `.id` off the int
and crash; CPython string/int hashes do not collide with tuple hashes
for these small values, and the source never reaches that path.) -/
def inSubmissionIds : SubmittedId → List ID → Bool
  | .editId i, ids => ids.contains i
  | _, _ => false

/-- The double-rebase loop of Shadow.new_submission:

    x = edit.ot
    for t in self.tail:
        if conflicts(x, t.ot): self.dirty = True
        x_new = x.after(t.ot)
        if not self.dirty: t.ot = t.ot.after(x)
        x = x_new

The running x is an Option because x.after can return None; if x is
None when a further tail element is examined, `conflicts(None, t.ot)`
raises AttributeError in the source - the outer `none` result.  When
dirty is still false at an element, `conflicts x t.ot` is false, and
then `t.ot.after(x)` cannot be None (proved below as
after_isSome_of_not_conflicts); the `getD` default on that branch is
therefore never used. -/
def runTail : Option Op → Bool → List EditMod → Option (List EditMod × Option Op × Bool)
  | x?, dirty, [] => some ([], x?, dirty)
  | none, _, _ :: _ => none
  | some x, dirty, t :: ts =>
    let dirty2 := dirty || conflicts x t.ot
    let xNew := Op.after x t.ot
    let t2 := if dirty2 then t else { t with ot := (Op.after t.ot x).getD t.ot }
    match runTail xNew dirty2 ts with
    | none => none
    | some (ts2, xf, df) => some (t2 :: ts2, xf, df)

/-- Shadow.new_submission(edit, new_edits), step for step:
advance last_known_id to the last new edit; reject immediately when
already dirty; filter new edits whose submitted_id is among
submission_ids; assert that the filter removed nothing or only the
leading element (an AssertionError is the outer `none`); extend the
tail; run the double rebase; record the submission when still clean;
and return the final x - note that the source returns x even when the
rebase just turned the shadow dirty. -/
def Shadow.newSubmission (s : Shadow) (edit : Edit) (newEdits : List Edit) :
    Option (Shadow × Option Op) :=
  let lk := ((newEdits.getLast?).map fun e => e.id).getD s.lastKnownId
  if s.dirty then some ({ s with lastKnownId := lk }, none)
  else
    let newExternal :=
      newEdits.filter fun (n : Edit) => !(inSubmissionIds n.submittedId s.submissionIds)
    if newExternal = newEdits ∨ newExternal = newEdits.drop 1 then
      let tail1 := s.tail ++ newExternal.map fun (n : Edit) => EditMod.mk n.ot n
      match runTail (some edit.ot) false tail1 with
      | none => none
      | some (tail2, xf, dirty2) =>
        if dirty2 then
          some ({ s with lastKnownId := lk, dirty := dirty2, tail := tail2 }, xf)
        else
          some ({ s with
                  lastKnownId := lk
                  dirty := dirty2
                  tail := tail2
                  submissions := s.submissions ++ [edit]
                  submissionIds := s.submissionIds ++ [edit.id] }, xf)
    else none

/- ----------------------------------------------------------------- -/
/- Edit.from_line and the edit server. -/
/- ----------------------------------------------------------------- -/

/-- Python bytes.split(b":", maxsplit) - at most `maxsplit` cuts, the
remainder (colons included) lands in the final field. -/
def splitColon : Nat → List Nat → List (List Nat)
  | 0, l => [l]
  | maxsplit + 1, l =>
    let pre := l.takeWhile fun c => c != 58
    let rest := l.dropWhile fun c => c != 58
    match rest with
    | [] => [l]
    | _ :: tl => pre :: splitColon maxsplit tl

/-- Edit.from_line(text, editor).  Any exception inside the try block is
re-raised as ValueError("bad edit line"), which is the `none` result
here (too few fields is an IndexError; a bad int or bad escape or the
Delete TypeError of decode_ot likewise).  The claim-relevant detail is
the last field: the source stores `submitted_id=editor`, the bare editor
integer, not the id under which the edit was submitted.  (When decode_ot
falls through on an unknown optype the source would store ot=None inside
the Edit without raising; no claim exercises that path and it is folded
into `none` here.) -/
def Edit.from_line (text : List Nat) (editor : Nat) : Option Edit :=
  match splitColon 5 text with
  | [f0, f1, f2, f3, f4, f5] =>
    match parseNat f0, parseNat f1, parseNat f2 with
    | some i0, some i1, some i2 =>
      match decode_ot f3 f4 f5 with
      | .ok (some op) => some ⟨op, ⟨i0, .num editor⟩, ⟨i1, .num i2⟩, .editorNum editor⟩
      | _ => none
    | _, _, _ => none
  | _ => none

/-- The mutable state that EditServer.submission_atomic touches, for one
connection: the authoritative history `self.edits`, the document bytes
`self.text`, and that connection's shadow. -/
structure ServerSt where
  edits : List Edit
  text : List Nat
  shadow : Shadow
deriving DecidableEq

/-- EditServer.submission_atomic(conn, edit): replace the shadow when the
parent is on the server history (editor 0); pull the new server edits
past last_known_id; run new_submission; when it returns an operation,
append the rebased edit to the history with a fresh server id and apply
it to the document.  The outer `none` is the AssertionError /
AttributeError escape from new_submission. -/
def submissionAtomic (st : ServerSt) (edit : Edit) :
    Option (ServerSt × Option (Nat × Op)) :=
  let shadow0 := if edit.parent.editor = .num 0 then Shadow.init edit.parent else st.shadow
  let newEdits := st.edits.drop (shadow0.lastKnownId.id + 1)
  match shadow0.newSubmission edit newEdits with
  | none => none
  | some (shadow1, none) => some ({ st with shadow := shadow1 }, none)
  | some (shadow1, some op) =>
    let newId := st.edits.length
    some (⟨st.edits ++ [⟨op, ⟨newId, .srv⟩, ⟨newId - 1, .srv⟩, edit.submittedId⟩],
           Op.apply op st.text, shadow1⟩,
          some (newId, op))

/-- The client-parent branch of EditServer.on_read (the elif for
`edit.parent.editor == 1`):

    valid = None
    if shadow.submissions:
        valid = shadow.submissions[-1].id
    if not shadow.dirty and edit.parent.id != valid:
        raise ValueError(...)

When the shadow is dirty the `and` short-circuits and the check passes.
Otherwise `edit.parent.id != valid` is evaluated: against None it is
True (so ValueError is raised - BadParent); against an ID object,
int.__ne__ returns NotImplemented and Python falls back to
ID.__eq__(valid, parent_id_int), whose body reads `other.id` off an
int and raises AttributeError - for every parent value, matching or
not.  The parentId argument is therefore never consulted. -/
def clientParentCheck (shadow : Shadow) (_parentId : Nat) : Except PyErr Unit :=
  match shadow.submissions.getLast? with
  | none => if !shadow.dirty then .error .valueError else .ok ()
  | some _ => if !shadow.dirty then .error .attributeError else .ok ()

/- ----------------------------------------------------------------- -/
/- The protocol runs that claim C2 quantifies over. -/
/- ----------------------------------------------------------------- -/

/-- One client interacting with the authoritative history through its
shadow, as exercised by test_shadow:

* `covered` is the authoritative history over the range the shadow
  accounts for - every server edit up to and including the rebased form
  of the last accepted submission;
* `echo` is that rebased edit itself, appended to the history after the
  last pull and so still ahead of last_known_id; submission_atomic
  propagates the accepted edit's id into its submitted_id, which is how
  the filter in new_submission recognises and drops it on the next pull;
* `pend` are other clients' edits appended to the history since then,
  each applicable to the document state where it landed, carrying the
  bare-editor submitted_id their wire decoding gives them.

The next submission is fed exactly the server edits appended since
last_known_id, namely `echo` followed by `pend`, and the run only
continues while the call returns cleanly without turning the shadow
dirty (the scenario of claim C2). -/
inductive SimRun (D0 : List Nat) : Shadow → List Op → Option Edit → List Edit → Prop
  | init (baseId : ID) : SimRun D0 (Shadow.init baseId) [] none []
  | inject {s covered echo pend} (e : Edit) (k : Nat)
      (hprev : SimRun D0 s covered echo pend)
      (hsid : e.submittedId = .editorNum k)
      (happ : applicable e.ot (applyOps (pend.map fun x => x.ot) (applyOps covered D0))) :
      SimRun D0 s covered echo (pend ++ [e])
  | submit {s covered echo pend} (edit : Edit) (s' : Shadow) (x' : Op) (sid : ID)
      (hprev : SimRun D0 s covered echo pend)
      (happ : applicable edit.ot (applyOps (s.submissions.map fun e => e.ot) D0))
      (hcall : s.newSubmission edit (echo.toList ++ pend) = some (s', some x'))
      (hclean : s'.dirty = false) :
      SimRun D0 s' (covered ++ (pend.map fun e => e.ot) ++ [x'])
        (some ⟨x', sid, sid, .editId edit.id⟩) []


/- ----------------------------------------------------------------- -/
/- Shared lemmas: splicing documents at exact split points. -/
/- ----------------------------------------------------------------- -/

theorem apply_insert_at (A C t : List Nat) (n : Nat) (h : n = A.length) :
    Op.apply (.insert n t) (A ++ C) = A ++ t ++ C := by
  show (A ++ C).take n ++ t ++ (A ++ C).drop n = A ++ t ++ C
  rw [List.take_left' h.symm, List.drop_left' h.symm]

theorem apply_delete_at (A B C : List Nat) (tx : Option (List Nat)) (n m : Nat)
    (hn : n = A.length) (hm : m = B.length) :
    Op.apply (.delete n m tx) (A ++ B ++ C) = A ++ C := by
  show (A ++ B ++ C).take n ++ (A ++ B ++ C).drop (n + m) = A ++ C
  have h1 : (A ++ B ++ C).take n = A := by
    rw [List.append_assoc]; exact List.take_left' hn.symm
  have h2 : (A ++ B ++ C).drop (n + m) = C :=
    List.drop_left' (by rw [List.length_append, hn, hm])
  rw [h1, h2]

theorem exists_split2 (l : List Nat) (i : Nat) (h : i ≤ l.length) :
    ∃ A B, l = A ++ B ∧ A.length = i :=
  ⟨l.take i, l.drop i, (List.take_append_drop i l).symm,
   by rw [List.length_take]; omega⟩

theorem length_apply_insert (i : Nat) (t doc : List Nat) :
    (Op.apply (.insert i t) doc).length = doc.length + t.length := by
  show (doc.take i ++ t ++ doc.drop i).length = doc.length + t.length
  simp only [List.length_append, List.length_take, List.length_drop]
  omega

theorem length_apply_delete (i n : Nat) (tx : Option (List Nat)) (doc : List Nat)
    (h : i + n ≤ doc.length) :
    (Op.apply (.delete i n tx) doc).length = doc.length - n := by
  show (doc.take i ++ doc.drop (i + n)).length = doc.length - n
  simp only [List.length_append, List.length_take, List.length_drop]
  omega

/- Commutation of the four non-conflicting shapes.  Each side is reduced
separately to a right-associated canonical concatenation. -/

theorem comm_ins_ins (i j : Nat) (t u doc : List Nat) (hij : i < j)
    (hj : j ≤ doc.length) :
    Op.apply (.insert (j + t.length) u) (Op.apply (.insert i t) doc)
      = Op.apply (.insert i t) (Op.apply (.insert j u) doc) := by
  obtain ⟨A, R, rfl, hA⟩ := exists_split2 doc i (by omega)
  have hR : j - i ≤ R.length := by have := List.length_append A R; omega
  obtain ⟨B, C, rfl, hB⟩ := exists_split2 R (j - i) hR
  have hL : Op.apply (.insert (j + t.length) u) (Op.apply (.insert i t) (A ++ (B ++ C)))
      = A ++ (t ++ (B ++ (u ++ C))) := by
    rw [apply_insert_at A (B ++ C) t i hA.symm,
        ← List.append_assoc (A ++ t) B C,
        apply_insert_at (A ++ t ++ B) C u (j + t.length)
          (by simp only [List.length_append]; omega)]
    simp [List.append_assoc]
  have hR2 : Op.apply (.insert i t) (Op.apply (.insert j u) (A ++ (B ++ C)))
      = A ++ (t ++ (B ++ (u ++ C))) := by
    rw [← List.append_assoc A B C,
        apply_insert_at (A ++ B) C u j (by simp only [List.length_append]; omega),
        show A ++ B ++ u ++ C = A ++ (B ++ (u ++ C)) by simp [List.append_assoc],
        apply_insert_at A (B ++ (u ++ C)) t i hA.symm]
    simp [List.append_assoc]
  rw [hL, hR2]

theorem comm_ins_del_left (i j n : Nat) (t : List Nat) (ty : Option (List Nat))
    (doc : List Nat) (hij : i < j) (hjn : j + n ≤ doc.length) :
    Op.apply (.delete (j + t.length) n ty) (Op.apply (.insert i t) doc)
      = Op.apply (.insert i t) (Op.apply (.delete j n ty) doc) := by
  obtain ⟨A, R, rfl, hA⟩ := exists_split2 doc i (by omega)
  have hR1 : j - i ≤ R.length := by have := List.length_append A R; omega
  obtain ⟨B, R2, rfl, hB⟩ := exists_split2 R (j - i) hR1
  have hR2 : n ≤ R2.length := by
    have h1 := List.length_append A (B ++ R2)
    have h2 := List.length_append B R2
    omega
  obtain ⟨C, D, rfl, hC⟩ := exists_split2 R2 n hR2
  have hL : Op.apply (.delete (j + t.length) n ty)
        (Op.apply (.insert i t) (A ++ (B ++ (C ++ D))))
      = A ++ (t ++ (B ++ D)) := by
    rw [apply_insert_at A (B ++ (C ++ D)) t i hA.symm,
        show A ++ t ++ (B ++ (C ++ D)) = (A ++ t ++ B) ++ C ++ D by
          simp [List.append_assoc],
        apply_delete_at (A ++ t ++ B) C D ty (j + t.length) n
          (by simp only [List.length_append]; omega) hC.symm]
    simp [List.append_assoc]
  have hRr : Op.apply (.insert i t)
        (Op.apply (.delete j n ty) (A ++ (B ++ (C ++ D))))
      = A ++ (t ++ (B ++ D)) := by
    rw [show A ++ (B ++ (C ++ D)) = (A ++ B) ++ C ++ D by simp [List.append_assoc],
        apply_delete_at (A ++ B) C D ty j n
          (by simp only [List.length_append]; omega) hC.symm,
        show A ++ B ++ D = A ++ (B ++ D) by simp [List.append_assoc],
        apply_insert_at A (B ++ D) t i hA.symm]
    simp [List.append_assoc]
  rw [hL, hRr]

theorem comm_ins_del_right (i j n : Nat) (t : List Nat) (ty : Option (List Nat))
    (doc : List Nat) (hji : j + n < i) (hi : i ≤ doc.length) :
    Op.apply (.delete j n ty) (Op.apply (.insert i t) doc)
      = Op.apply (.insert (i - n) t) (Op.apply (.delete j n ty) doc) := by
  obtain ⟨A, R, rfl, hA⟩ := exists_split2 doc j (by omega)
  have hR1 : n ≤ R.length := by have := List.length_append A R; omega
  obtain ⟨B, R2, rfl, hB⟩ := exists_split2 R n hR1
  have hR2 : i - j - n ≤ R2.length := by
    have h1 := List.length_append A (B ++ R2)
    have h2 := List.length_append B R2
    omega
  obtain ⟨C, D, rfl, hC⟩ := exists_split2 R2 (i - j - n) hR2
  have hL : Op.apply (.delete j n ty)
        (Op.apply (.insert i t) (A ++ (B ++ (C ++ D))))
      = A ++ (C ++ (t ++ D)) := by
    rw [show A ++ (B ++ (C ++ D)) = (A ++ B ++ C) ++ D by simp [List.append_assoc],
        apply_insert_at (A ++ B ++ C) D t i (by simp only [List.length_append]; omega),
        show (A ++ B ++ C) ++ t ++ D = A ++ B ++ (C ++ (t ++ D)) by
          simp [List.append_assoc],
        apply_delete_at A B (C ++ (t ++ D)) ty j n hA.symm hB.symm]
  have hRr : Op.apply (.insert (i - n) t)
        (Op.apply (.delete j n ty) (A ++ (B ++ (C ++ D))))
      = A ++ (C ++ (t ++ D)) := by
    rw [show A ++ (B ++ (C ++ D)) = A ++ B ++ (C ++ D) by simp [List.append_assoc],
        apply_delete_at A B (C ++ D) ty j n hA.symm hB.symm,
        show A ++ (C ++ D) = (A ++ C) ++ D by simp [List.append_assoc],
        apply_insert_at (A ++ C) D t (i - n) (by simp only [List.length_append]; omega)]
    simp [List.append_assoc]
  rw [hL, hRr]

theorem comm_del_del (i n j m : Nat) (tx ty : Option (List Nat))
    (doc : List Nat) (hij : i + n < j) (hj : j + m ≤ doc.length) :
    Op.apply (.delete (j - n) m ty) (Op.apply (.delete i n tx) doc)
      = Op.apply (.delete i n tx) (Op.apply (.delete j m ty) doc) := by
  obtain ⟨A, R, rfl, hA⟩ := exists_split2 doc i (by omega)
  have hR1 : n ≤ R.length := by have := List.length_append A R; omega
  obtain ⟨B, R2, rfl, hB⟩ := exists_split2 R n hR1
  have hR2 : j - i - n ≤ R2.length := by
    have h1 := List.length_append A (B ++ R2)
    have h2 := List.length_append B R2
    omega
  obtain ⟨C, R3, rfl, hC⟩ := exists_split2 R2 (j - i - n) hR2
  have hR3 : m ≤ R3.length := by
    have h1 := List.length_append A (B ++ (C ++ R3))
    have h2 := List.length_append B (C ++ R3)
    have h3 := List.length_append C R3
    omega
  obtain ⟨D, E, rfl, hD⟩ := exists_split2 R3 m hR3
  have hL : Op.apply (.delete (j - n) m ty)
        (Op.apply (.delete i n tx) (A ++ (B ++ (C ++ (D ++ E)))))
      = A ++ (C ++ E) := by
    rw [show A ++ (B ++ (C ++ (D ++ E))) = A ++ B ++ (C ++ (D ++ E)) by
          simp [List.append_assoc],
        apply_delete_at A B (C ++ (D ++ E)) tx i n hA.symm hB.symm,
        show A ++ (C ++ (D ++ E)) = (A ++ C) ++ D ++ E by simp [List.append_assoc],
        apply_delete_at (A ++ C) D E ty (j - n) m
          (by simp only [List.length_append]; omega) hD.symm]
    simp [List.append_assoc]
  have hRr : Op.apply (.delete i n tx)
        (Op.apply (.delete j m ty) (A ++ (B ++ (C ++ (D ++ E)))))
      = A ++ (C ++ E) := by
    rw [show A ++ (B ++ (C ++ (D ++ E))) = (A ++ B ++ C) ++ D ++ E by
          simp [List.append_assoc],
        apply_delete_at (A ++ B ++ C) D E ty j m
          (by simp only [List.length_append]; omega) hD.symm,
        show (A ++ B ++ C) ++ E = A ++ B ++ (C ++ E) by simp [List.append_assoc],
        apply_delete_at A B (C ++ E) tx i n hA.symm hB.symm]
  rw [hL, hRr]

/- Symmetry of the conflicts predicate and totality of after on
non-conflicting pairs. -/

theorem conflicts_symm (a b : Op) : conflicts a b = conflicts b a := by
  cases a with
  | insert ai at2 =>
    cases b with
    | insert bi bt =>
      show (ai == bi) = (bi == ai)
      rcases eq_or_ne ai bi with h | h
      · simp [h]
      · simp [h, Ne.symm h]
    | delete bi bn bt => rfl
  | delete ai an at2 =>
    cases b with
    | insert bi bt => rfl
    | delete bi bn bt =>
      show (if ai > bi then decide (bi + bn ≥ ai) else decide (ai + an ≥ bi))
        = (if bi > ai then decide (ai + an ≥ bi) else decide (bi + bn ≥ ai))
      split <;> split <;> first | rfl | exact decide_eq_decide.mpr (by omega)

theorem after_isSome_of_not_conflicts (a b : Op) (hc : conflicts a b = false) :
    ∃ c, Op.after a b = some c := by
  cases a with
  | insert si t =>
    cases b with
    | insert oi u =>
      simp only [Op.after]
      split
      · exact ⟨_, rfl⟩
      · split <;> exact ⟨_, rfl⟩
    | delete oi on2 ty =>
      simp only [Op.after]
      split
      · exact ⟨_, rfl⟩
      · split <;> exact ⟨_, rfl⟩
  | delete si sn tx =>
    cases b with
    | insert oi u =>
      simp only [Op.after]
      split
      · exact ⟨_, rfl⟩
      · split
        · exact ⟨_, rfl⟩
        · split
          · exact ⟨_, rfl⟩
          · split <;> exact ⟨_, rfl⟩
    | delete oi on2 ty =>
      have hc2 : (si ≤ oi ∧ si + sn < oi) ∨ (oi < si ∧ oi + on2 < si) := by
        simp only [conflicts] at hc
        split at hc <;> simp at hc <;> omega
      simp only [Op.after]
      rcases hc2 with ⟨h1, h2⟩ | ⟨h1, h2⟩
      · rw [if_pos (show oi ≥ si + sn by omega)]
        exact ⟨_, rfl⟩
      · rw [if_neg (show ¬ oi ≥ si + sn by omega),
            if_pos (show oi + on2 ≤ si by omega)]
        exact ⟨_, rfl⟩

/-- Core of P1: non-conflicting operations commute on every document
where both (and hence both transforms) are applicable. -/
theorem comm_core (a b : Op) (doc : List Nat) (hc : conflicts a b = false)
    (ha : applicable a doc) (hb : applicable b doc) :
    ∃ a2 b2, Op.after a b = some a2 ∧ Op.after b a = some b2 ∧
      Op.apply b2 (Op.apply a doc) = Op.apply a2 (Op.apply b doc) := by
  cases a with
  | insert i t =>
    cases b with
    | insert j u =>
      have hij : i ≠ j := by simp only [conflicts] at hc; simpa using hc
      rcases Nat.lt_or_ge i j with h | h
      · refine ⟨.insert i t, .insert (j + t.length) u, ?_, ?_, ?_⟩
        · simp only [Op.after]; rw [if_pos (show j > i from h)]
        · simp only [Op.after]
          rw [if_neg (show ¬ i > j by omega), if_neg (show ¬ i = j by omega)]
        · exact comm_ins_ins i j t u doc h (by simpa [applicable] using hb)
      · have h2 : j < i := by omega
        refine ⟨.insert (i + u.length) t, .insert j u, ?_, ?_, ?_⟩
        · simp only [Op.after]
          rw [if_neg (show ¬ j > i by omega), if_neg (show ¬ j = i by omega)]
        · simp only [Op.after]; rw [if_pos (show i > j from h2)]
        · exact (comm_ins_ins j i u t doc h2 (by simpa [applicable] using ha)).symm
    | delete j m ty =>
      have hc2 : i < j ∨ j + m < i := by simp only [conflicts] at hc; simp at hc; omega
      rcases hc2 with h | h
      · refine ⟨.insert i t, .delete (j + t.length) m ty, ?_, ?_, ?_⟩
        · simp only [Op.after]; rw [if_pos (show j > i from h)]
        · simp only [Op.after]
          rw [if_neg (show ¬ i > j + m by omega), if_pos (show i < j from h)]
        · exact comm_ins_del_left i j m t ty doc h (by simpa [applicable] using hb)
      · refine ⟨.insert (i - m) t, .delete j m ty, ?_, ?_, ?_⟩
        · simp only [Op.after]
          rw [if_neg (show ¬ j > i by omega), if_pos (show j + m < i from h)]
        · simp only [Op.after]; rw [if_pos (show i > j + m from h)]
        · exact comm_ins_del_right i j m t ty doc h (by simpa [applicable] using ha)
  | delete i n tx =>
    cases b with
    | insert j u =>
      have hc2 : j < i ∨ i + n < j := by simp only [conflicts] at hc; simp at hc; omega
      rcases hc2 with h | h
      · refine ⟨.delete (i + u.length) n tx, .insert j u, ?_, ?_, ?_⟩
        · simp only [Op.after]
          rw [if_neg (show ¬ j > i + n by omega), if_pos (show j < i from h)]
        · simp only [Op.after]; rw [if_pos (show i > j from h)]
        · exact (comm_ins_del_left j i n u tx doc h
            (by simpa [applicable] using ha)).symm
      · refine ⟨.delete i n tx, .insert (j - n) u, ?_, ?_, ?_⟩
        · simp only [Op.after]; rw [if_pos (show j > i + n from h)]
        · simp only [Op.after]
          rw [if_neg (show ¬ i > j by omega), if_pos (show i + n < j from h)]
        · exact (comm_ins_del_right j i n u tx doc h
            (by simpa [applicable] using hb)).symm
    | delete j m ty =>
      have hc2 : (i ≤ j ∧ i + n < j) ∨ (j < i ∧ j + m < i) := by
        simp only [conflicts] at hc
        split at hc <;> simp at hc <;> omega
      rcases hc2 with ⟨h1, h2⟩ | ⟨h1, h2⟩
      · refine ⟨.delete i n tx, .delete (j - n) m ty, ?_, ?_, ?_⟩
        · simp only [Op.after]; rw [if_pos (show j ≥ i + n by omega)]
        · simp only [Op.after]
          rw [if_neg (show ¬ i ≥ j + m by omega), if_pos (show i + n ≤ j by omega)]
        · exact comm_del_del i n j m tx ty doc h2 (by simpa [applicable] using hb)
      · refine ⟨.delete (i - m) n tx, .delete j m ty, ?_, ?_, ?_⟩
        · simp only [Op.after]
          rw [if_neg (show ¬ j ≥ i + n by omega), if_pos (show j + m ≤ i by omega)]
        · simp only [Op.after]; rw [if_pos (show i ≥ j + m by omega)]
        · exact (comm_del_del j m i n ty tx doc h2
            (by simpa [applicable] using ha)).symm

/-- Applicability is preserved by after on non-conflicting pairs: the
transform of b lands inside the document produced by a. -/
theorem applicable_after (a b : Op) (doc : List Nat) (hc : conflicts a b = false)
    (ha : applicable a doc) (hb : applicable b doc) :
    ∀ b2, Op.after b a = some b2 → applicable b2 (Op.apply a doc) := by
  intro b2 hb2
  cases a with
  | insert i t =>
    have hlen : (Op.apply (.insert i t) doc).length = doc.length + t.length :=
      length_apply_insert i t doc
    cases b with
    | insert j u =>
      have hij : i ≠ j := by simp only [conflicts] at hc; simpa using hc
      simp only [Op.after] at hb2
      rcases Nat.lt_or_ge i j with h | h
      · rw [if_neg (show ¬ i > j by omega), if_neg (show ¬ i = j by omega)] at hb2
        cases hb2
        simp only [applicable] at hb ⊢
        omega
      · rw [if_pos (show i > j by omega)] at hb2
        cases hb2
        simp only [applicable] at hb ⊢
        omega
    | delete j m ty =>
      have hc2 : i < j ∨ j + m < i := by simp only [conflicts] at hc; simp at hc; omega
      simp only [Op.after] at hb2
      rcases hc2 with h | h
      · rw [if_neg (show ¬ i > j + m by omega), if_pos (show i < j from h)] at hb2
        cases hb2
        simp only [applicable] at hb ⊢
        omega
      · rw [if_pos (show i > j + m from h)] at hb2
        cases hb2
        simp only [applicable] at hb ⊢
        omega
  | delete i n tx =>
    have hlen : (Op.apply (.delete i n tx) doc).length = doc.length - n :=
      length_apply_delete i n tx doc (by simpa [applicable] using ha)
    cases b with
    | insert j u =>
      have hc2 : j < i ∨ i + n < j := by simp only [conflicts] at hc; simp at hc; omega
      simp only [Op.after] at hb2
      rcases hc2 with h | h
      · rw [if_pos (show i > j from h)] at hb2
        cases hb2
        simp only [applicable] at ha hb ⊢
        omega
      · rw [if_neg (show ¬ i > j by omega), if_pos (show i + n < j from h)] at hb2
        cases hb2
        simp only [applicable] at ha hb ⊢
        omega
    | delete j m ty =>
      have hc2 : (i ≤ j ∧ i + n < j) ∨ (j < i ∧ j + m < i) := by
        simp only [conflicts] at hc
        split at hc <;> simp at hc <;> omega
      simp only [Op.after] at hb2
      rcases hc2 with ⟨h1, h2⟩ | ⟨h1, h2⟩
      · rw [if_neg (show ¬ i ≥ j + m by omega), if_pos (show i + n ≤ j by omega)] at hb2
        cases hb2
        simp only [applicable] at ha hb ⊢
        omega
      · rw [if_pos (show i ≥ j + m by omega)] at hb2
        cases hb2
        simp only [applicable] at ha hb ⊢
        omega

/- Chain lemmas for the rebase loop. -/

theorem applyOps_cons (op : Op) (ops : List Op) (d : List Nat) :
    applyOps (op :: ops) d = applyOps ops (Op.apply op d) := rfl

theorem applyOps_append (xs ys : List Op) (d : List Nat) :
    applyOps (xs ++ ys) d = applyOps ys (applyOps xs d) :=
  List.foldl_append _ _ _ _

theorem chainValid_append (d : List Nat) (xs ys : List Op) :
    chainValid d (xs ++ ys) ↔ chainValid d xs ∧ chainValid (applyOps xs d) ys := by
  induction xs generalizing d with
  | nil => simp [chainValid, applyOps]
  | cons op ops ih =>
    show (applicable op d ∧ chainValid (Op.apply op d) (ops ++ ys)) ↔
      (applicable op d ∧ chainValid (Op.apply op d) ops) ∧
        chainValid (applyOps ops (Op.apply op d)) ys
    rw [ih]
    exact and_assoc.symm

theorem runTail_dirty_stays : ∀ (ts : List EditMod) (x? : Option Op)
    (ts2 : List EditMod) (xf : Option Op) (df : Bool),
    runTail x? true ts = some (ts2, xf, df) → df = true := by
  intro ts
  induction ts with
  | nil =>
    intro x? ts2 xf df h
    simp only [runTail, Option.some.injEq, Prod.mk.injEq] at h
    exact h.2.2.symm
  | cons t ts ih =>
    intro x? ts2 xf df h
    cases x? with
    | none => simp [runTail] at h
    | some x =>
      simp only [runTail, Bool.true_or] at h
      cases hrec : runTail (Op.after x t.ot) true ts with
      | none => rw [hrec] at h; simp at h
      | some res =>
        obtain ⟨ts3, xf3, df3⟩ := res
        rw [hrec] at h
        simp only [Option.some.injEq, Prod.mk.injEq] at h
        rw [← h.2.2]
        exact ih (Op.after x t.ot) ts3 xf3 df3 hrec

/-- The many-onto-one / one-onto-many double rebase of new_submission,
on a clean run: the final x exists, commuting x past the tail equals
prefixing x to the rebased tail, validity is preserved, and the final x
is applicable after the whole original tail. -/
theorem runTail_clean_spec : ∀ (ts : List EditMod) (x : Op) (d : List Nat)
    (ts2 : List EditMod) (xf : Option Op),
    runTail (some x) false ts = some (ts2, xf, false) →
    applicable x d →
    chainValid d (ts.map fun t => t.ot) →
    ∃ x2, xf = some x2 ∧
      applyOps ((ts.map fun t => t.ot) ++ [x2]) d
        = applyOps (x :: ts2.map fun t => t.ot) d ∧
      chainValid d (x :: ts2.map fun t => t.ot) ∧
      applicable x2 (applyOps (ts.map fun t => t.ot) d) := by
  intro ts
  induction ts with
  | nil =>
    intro x d ts2 xf h hx hch
    simp only [runTail, Option.some.injEq, Prod.mk.injEq] at h
    obtain ⟨h1, h2, -⟩ := h
    subst h1
    exact ⟨x, h2.symm, rfl, ⟨hx, trivial⟩, hx⟩
  | cons t ts ih =>
    intro x d ts2 xf h hx hch
    obtain ⟨hat, hch2⟩ := hch
    simp only [runTail, Bool.false_or] at h
    cases hcf : conflicts x t.ot with
    | true =>
      rw [hcf] at h
      cases hrec : runTail (Op.after x t.ot) true ts with
      | none => rw [hrec] at h; simp at h
      | some res =>
        obtain ⟨ts3, xf3, df3⟩ := res
        rw [hrec] at h
        simp only [Option.some.injEq, Prod.mk.injEq] at h
        have hdf := runTail_dirty_stays ts (Op.after x t.ot) ts3 xf3 df3 hrec
        rw [hdf] at h
        exact absurd h.2.2 (by simp)
    | false =>
      rw [hcf] at h
      rw [if_neg Bool.false_ne_true] at h
      have hsymm : conflicts t.ot x = false := by rw [conflicts_symm]; exact hcf
      obtain ⟨u, hu⟩ := after_isSome_of_not_conflicts t.ot x hsymm
      obtain ⟨x1, hx1⟩ := after_isSome_of_not_conflicts x t.ot hcf
      rw [hx1, hu] at h
      simp only [Option.getD_some] at h
      cases hrec : runTail (some x1) false ts with
      | none => rw [hrec] at h; simp at h
      | some res =>
        obtain ⟨ts3, xf3, df3⟩ := res
        rw [hrec] at h
        simp only [Option.some.injEq, Prod.mk.injEq] at h
        obtain ⟨hts2, hxf3, hdf3⟩ := h
        rw [hdf3] at hrec
        have hax1 : applicable x1 (Op.apply t.ot d) :=
          applicable_after t.ot x d hsymm hat hx x1 hx1
        have hau : applicable u (Op.apply x d) :=
          applicable_after x t.ot d hcf hx hat u hu
        have hstep : Op.apply x1 (Op.apply t.ot d) = Op.apply u (Op.apply x d) := by
          obtain ⟨a2, b2, ha2, hb2, heq⟩ := comm_core t.ot x d hsymm hat hx
          rw [hu, Option.some.injEq] at ha2
          rw [hx1, Option.some.injEq] at hb2
          subst ha2
          subst hb2
          exact heq
        obtain ⟨x2, hxf2, hiheq, hihch, hihapp⟩ :=
          ih x1 (Op.apply t.ot d) ts3 xf3 hrec hax1 hch2
        refine ⟨x2, by rw [← hxf3, hxf2], ?_, ?_, ?_⟩
        · rw [← hts2]
          show applyOps ((t.ot :: (ts.map fun t => t.ot)) ++ [x2]) d
            = applyOps (x :: u :: (ts3.map fun t => t.ot)) d
          rw [List.cons_append, applyOps_cons, hiheq]
          simp only [applyOps_cons]
          rw [hstep]
        · rw [← hts2]
          show chainValid d (x :: u :: (ts3.map fun t => t.ot))
          obtain ⟨_, h2⟩ := hihch
          refine ⟨hx, hau, ?_⟩
          show chainValid (Op.apply u (Op.apply x d)) (ts3.map fun t => t.ot)
          rw [← hstep]
          exact h2
        · exact hihapp

/-- Rebased tail wrappers project back to the original operations. -/
theorem map_ot_mkmod (l : List Edit) :
    (l.map fun (n : Edit) => EditMod.mk n.ot n).map (fun t => t.ot)
      = l.map fun e => e.ot := by
  rw [List.map_map]
  rfl

/-- The invariant carried by every clean run: the shadow equals the
covered authoritative range, everything in sight stays applicable, the
pending injections still carry bare-editor submitted ids, and the echo
edit is recognised by submission_ids. -/
theorem simRun_inv (D0 : List Nat) {s : Shadow} {covered : List Op}
    {echo : Option Edit} {pend : List Edit}
    (h : SimRun D0 s covered echo pend) :
    s.dirty = false ∧
    chainValid D0 ((s.submissions.map fun e => e.ot) ++ (s.tail.map fun t => t.ot)) ∧
    applyOps ((s.submissions.map fun e => e.ot) ++ (s.tail.map fun t => t.ot)) D0
      = applyOps covered D0 ∧
    chainValid (applyOps covered D0) (pend.map fun e => e.ot) ∧
    (∀ e ∈ pend, ∃ k, e.submittedId = SubmittedId.editorNum k) ∧
    (∀ ec, echo = some ec → inSubmissionIds ec.submittedId s.submissionIds = true) := by
  induction h with
  | init baseId =>
    refine ⟨rfl, trivial, rfl, trivial, ?_, ?_⟩
    · intro e he; simp at he
    · intro ec hec; cases hec
  | inject e k hprev hsid happ ih =>
    obtain ⟨ih1, ih2, ih3, ih4, ih5, ih6⟩ := ih
    refine ⟨ih1, ih2, ih3, ?_, ?_, ih6⟩
    · rw [List.map_append, chainValid_append]
      exact ⟨ih4, happ, trivial⟩
    · intro e2 he2
      rcases List.mem_append.mp he2 with h2 | h2
      · exact ih5 e2 h2
      · rw [List.mem_singleton.mp h2]
        exact ⟨k, hsid⟩
  | submit edit s' x' sid hprev happ hcall hclean ih =>
    obtain ⟨ih1, ih2, ih3, ih4, ih5, ih6⟩ := ih
    rename_i s covered echo pend
    -- the echo is dropped by the filter, the injections are kept
    have hfilp : pend.filter
        (fun (n : Edit) => !(inSubmissionIds n.submittedId s.submissionIds)) = pend := by
      rw [List.filter_eq_self]
      intro a ha
      obtain ⟨k, hk⟩ := ih5 a ha
      rw [hk]
      rfl
    have hfil : (echo.toList ++ pend).filter
        (fun (n : Edit) => !(inSubmissionIds n.submittedId s.submissionIds)) = pend := by
      rw [List.filter_append, hfilp]
      cases echo with
      | none => rfl
      | some ec =>
        have hdrop := ih6 ec rfl
        show List.filter _ [ec] ++ pend = pend
        rw [show List.filter
            (fun (n : Edit) => !(inSubmissionIds n.submittedId s.submissionIds)) [ec] = [] by
          simp [List.filter, hdrop]]
        rfl
    have hassert2 : pend = echo.toList ++ pend ∨ pend = (echo.toList ++ pend).drop 1 := by
      cases echo with
      | none => exact Or.inl rfl
      | some ec => exact Or.inr rfl
    -- unfold the call
    simp only [Shadow.newSubmission] at hcall
    rw [ih1, if_neg Bool.false_ne_true, hfil, if_pos hassert2] at hcall
    cases hrt : runTail (some edit.ot) false
        (s.tail ++ pend.map fun (n : Edit) => EditMod.mk n.ot n) with
    | none => rw [hrt] at hcall; exact absurd hcall (by simp)
    | some res =>
      obtain ⟨tail2, xf, dirty2⟩ := res
      rw [hrt] at hcall
      cases dirty2 with
      | true =>
        replace hcall : some ((⟨true, (((echo.toList ++ pend).getLast?).map fun e => e.id).getD
              s.lastKnownId, s.submissions, s.submissionIds, tail2⟩ : Shadow), xf)
            = some (s', some x') := hcall
        injection hcall with hcall
        injection hcall with hsh hxf
        subst hsh
        exact absurd hclean (by simp)
      | false =>
        replace hcall : some ((⟨false, (((echo.toList ++ pend).getLast?).map fun e => e.id).getD
              s.lastKnownId, s.submissions ++ [edit], s.submissionIds ++ [edit.id],
              tail2⟩ : Shadow), xf)
            = some (s', some x') := hcall
        injection hcall with hcall
        injection hcall with hs' hxf
        subst hs'
        -- split the shadow chain
        have hsplit := (chainValid_append D0 (s.submissions.map fun e => e.ot)
          (s.tail.map fun t => t.ot)).mp ih2
        -- the pending injections are valid after the tail
        have hpchain : chainValid
            (applyOps (s.tail.map fun t => t.ot)
              (applyOps (s.submissions.map fun e => e.ot) D0))
            (pend.map fun e => e.ot) := by
          rw [← applyOps_append, ih3]
          exact ih4
        have hchain1 : chainValid (applyOps (s.submissions.map fun e => e.ot) D0)
            ((s.tail ++ pend.map fun (n : Edit) => EditMod.mk n.ot n).map fun t => t.ot) := by
          rw [List.map_append, map_ot_mkmod, chainValid_append]
          exact ⟨hsplit.2, hpchain⟩
        obtain ⟨x2, hx2, heq, hch, happ2⟩ := runTail_clean_spec _ edit.ot
          (applyOps (s.submissions.map fun e => e.ot) D0) tail2 xf hrt happ hchain1
        rw [hx2, Option.some.injEq] at hxf
        subst hxf
        -- rewrite the spec equation in terms of the plain op lists
        rw [List.map_append, map_ot_mkmod] at heq
        refine ⟨rfl, ?_, ?_, trivial, ?_, ?_⟩
        · -- validity of the new shadow chain
          show chainValid D0 (((s.submissions ++ [edit]).map fun e => e.ot)
            ++ (tail2.map fun t => t.ot))
          rw [List.map_append, List.append_assoc, chainValid_append]
          exact ⟨hsplit.1, hch⟩
        · -- the convergence equation for the extended covered range
          have e2 : applyOps ((s.tail.map fun t => t.ot) ++ (pend.map fun e => e.ot))
                (applyOps (s.submissions.map fun e => e.ot) D0)
              = applyOps (covered ++ (pend.map fun e => e.ot)) D0 :=
            calc applyOps ((s.tail.map fun t => t.ot) ++ (pend.map fun e => e.ot))
                  (applyOps (s.submissions.map fun e => e.ot) D0)
                = applyOps (pend.map fun e => e.ot)
                    (applyOps (s.tail.map fun t => t.ot)
                      (applyOps (s.submissions.map fun e => e.ot) D0)) :=
                  applyOps_append _ _ _
              _ = applyOps (pend.map fun e => e.ot)
                    (applyOps ((s.submissions.map fun e => e.ot)
                      ++ (s.tail.map fun t => t.ot)) D0) := by rw [applyOps_append]
              _ = applyOps (pend.map fun e => e.ot) (applyOps covered D0) := by rw [ih3]
              _ = applyOps (covered ++ (pend.map fun e => e.ot)) D0 :=
                  (applyOps_append _ _ _).symm
          show applyOps (((s.submissions ++ [edit]).map fun e => e.ot)
              ++ (tail2.map fun t => t.ot)) D0
            = applyOps ((covered ++ (pend.map fun e => e.ot)) ++ [x2]) D0
          rw [List.map_append, List.append_assoc, applyOps_append]
          show applyOps (edit.ot :: tail2.map fun t => t.ot)
              (applyOps (s.submissions.map fun e => e.ot) D0) = _
          rw [← heq, applyOps_append, e2, applyOps_append, applyOps_append,
              applyOps_append]
        · intro e he; simp at he
        · intro ec hec
          cases hec
          show inSubmissionIds (SubmittedId.editId edit.id)
            (s.submissionIds ++ [edit.id]) = true
          simp [inSubmissionIds]

/-- When a clean shadow turns dirty inside new_submission, the
submission is not recorded: submissions and submission_ids come out
unchanged. -/
theorem newSubmission_dirty_preserves (s : Shadow) (edit : Edit) (ne : List Edit)
    (s1 : Shadow) (r : Option Op)
    (hdirty : s.dirty = false)
    (hcall : s.newSubmission edit ne = some (s1, r))
    (hd2 : s1.dirty = true) :
    s1.submissions = s.submissions ∧ s1.submissionIds = s.submissionIds := by
  simp only [Shadow.newSubmission] at hcall
  rw [hdirty, if_neg Bool.false_ne_true] at hcall
  by_cases hassert :
      ne.filter (fun (n : Edit) => !(inSubmissionIds n.submittedId s.submissionIds)) = ne
      ∨ ne.filter (fun (n : Edit) => !(inSubmissionIds n.submittedId s.submissionIds))
        = ne.drop 1
  · rw [if_pos hassert] at hcall
    cases hrt : runTail (some edit.ot) false
        (s.tail ++ (ne.filter fun (n : Edit) =>
          !(inSubmissionIds n.submittedId s.submissionIds)).map
            fun (n : Edit) => EditMod.mk n.ot n) with
    | none => rw [hrt] at hcall; exact absurd hcall (by simp)
    | some res =>
      obtain ⟨tail2, xf, dirty2⟩ := res
      rw [hrt] at hcall
      cases dirty2 with
      | true =>
        replace hcall : some ((⟨true, ((ne.getLast?).map fun e => e.id).getD s.lastKnownId,
              s.submissions, s.submissionIds, tail2⟩ : Shadow), xf) = some (s1, r) := hcall
        injection hcall with hcall
        injection hcall with h1 h2
        rw [← h1]
        exact ⟨rfl, rfl⟩
      | false =>
        replace hcall : some ((⟨false, ((ne.getLast?).map fun e => e.id).getD s.lastKnownId,
              s.submissions ++ [edit], s.submissionIds ++ [edit.id],
              tail2⟩ : Shadow), xf) = some (s1, r) := hcall
        injection hcall with hcall
        injection hcall with h1 h2
        rw [← h1] at hd2
        exact absurd hd2 (by simp)
  · rw [if_neg hassert] at hcall
    exact absurd hcall (by simp)

/- ----------------------------------------------------------------- -/
/- Claim theorems. -/
/- ----------------------------------------------------------------- -/

/-- C1: for every pair of operations a, b with conflicts(a, b) false and
every document satisfying the applicability invariants, for the original
and the transformed operations alike,
apply(apply(doc, a), b.after(a)) equals apply(apply(doc, b), a.after(b));
both transforms exist (after returns an operation, never None, on
non-conflicting pairs). -/
theorem ot_convergence (a b : Op) (doc : List Nat)
    (hc : conflicts a b = false)
    (ha : applicable a doc) (hb : applicable b doc)
    (hba : ∀ b2, Op.after b a = some b2 → applicable b2 (Op.apply a doc))
    (hab : ∀ a2, Op.after a b = some a2 → applicable a2 (Op.apply b doc)) :
    ∃ a2 b2, Op.after a b = some a2 ∧ Op.after b a = some b2 ∧
      Op.apply b2 (Op.apply a doc) = Op.apply a2 (Op.apply b doc) :=
  comm_core a b doc hc ha hb

/-- C1 witness: the convergence theorem applied at a = Insert(0, "a"),
b = Insert(2, "b"), doc = "dd". -/
theorem ot_convergence_witness :
    ∃ a2 b2, Op.after (.insert 0 [97]) (.insert 2 [98]) = some a2 ∧
      Op.after (.insert 2 [98]) (.insert 0 [97]) = some b2 ∧
      Op.apply b2 (Op.apply (.insert 0 [97]) [100, 100])
        = Op.apply a2 (Op.apply (.insert 2 [98]) [100, 100]) :=
  ot_convergence (.insert 0 [97]) (.insert 2 [98]) [100, 100]
    (by decide) (by decide) (by decide)
    (fun b2 h => by
      rw [← Option.some.inj (show some (Op.insert 3 [98]) = some b2 from h)]
      decide)
    (fun a2 h => by
      rw [← Option.some.inj (show some (Op.insert 0 [97]) = some a2 from h)]
      decide)

/-- C9: a shadow that is already dirty when new_submission is called
absorbs the call: last_known_id advances to the last supplied server
edit (or stays put when none are supplied), the rejection None is
returned, and submissions, submission_ids and tail are untouched. -/
theorem dirty_absorption (s : Shadow) (edit : Edit) (newEdits : List Edit)
    (h : s.dirty = true) :
    s.newSubmission edit newEdits =
      some ({ s with lastKnownId :=
        ((newEdits.getLast?).map fun e => e.id).getD s.lastKnownId }, none) := by
  simp only [Shadow.newSubmission]
  rw [h, if_pos rfl]

/-- C9 witness: a dirty shadow fed one new server edit advances
last_known_id and changes nothing else. -/
theorem dirty_absorption_witness :
    (⟨true, ⟨1, .srv⟩, [⟨Op.insert 0 [97], ⟨0, .num 1⟩, ⟨0, .num 1⟩,
        .editorNum 1⟩], [⟨0, .num 1⟩], []⟩ : Shadow).newSubmission
      ⟨Op.insert 1 [99], ⟨1, .num 1⟩, ⟨0, .num 1⟩, .editorNum 1⟩
      [⟨Op.insert 0 [98], ⟨2, .srv⟩, ⟨1, .srv⟩, .srvTag⟩]
    = some (⟨true, ⟨2, .srv⟩, [⟨Op.insert 0 [97], ⟨0, .num 1⟩, ⟨0, .num 1⟩,
        .editorNum 1⟩], [⟨0, .num 1⟩], []⟩, none) :=
  dirty_absorption _ _ _ rfl

/-- C10: apply is total beyond the applicability invariants: an Insert
whose index exceeds the document length appends its text at the end,
and a Delete reaching past the end removes exactly the bytes from idx
to the end (Python slices clamp, so no exception is possible). -/
theorem apply_total_out_of_range (i n : Nat) (t : List Nat)
    (tx : Option (List Nat)) (doc : List Nat) :
    (doc.length < i → Op.apply (.insert i t) doc = doc ++ t) ∧
    (doc.length < i + n → Op.apply (.delete i n tx) doc = doc.take i) := by
  constructor
  · intro h
    show doc.take i ++ t ++ doc.drop i = doc ++ t
    rw [List.take_of_length_le (by omega), List.drop_eq_nil_of_le (by omega),
        List.append_nil]
  · intro h
    show doc.take i ++ doc.drop (i + n) = doc.take i
    rw [List.drop_eq_nil_of_le (by omega), List.append_nil]

/-- C10 witness: Insert(5, "\x09") appends to a 2-byte document;
Delete(1, 9) truncates it. -/
theorem apply_total_out_of_range_witness :
    Op.apply (.insert 5 [9]) [1, 2] = [1, 2, 9] ∧
    Op.apply (.delete 1 9 none) [1, 2] = [1] :=
  ⟨(apply_total_out_of_range 5 0 [9] none [1, 2]).1 (by decide),
   (apply_total_out_of_range 1 9 [9] none [1, 2]).2 (by decide)⟩

/-- C4: the round trip fails in the source.  encode_text escapes byte 1
as `\x01`, but decode_text crashes with NameError on every `\xNN`
escape, because the decoder body reads the undefined name `wire_byte`
(the parameter is `wire_byts`); the hex-digit table is never consulted.
The same NameError breaks the module's own test_encode_decode. -/
theorem decode_text_roundtrip_fails :
    encode_text [1] = [92, 120, 48, 49] ∧
    decode_text [92, 120, 48, 49] = .error .nameError :=
  ⟨rfl, rfl⟩

/-- C5: decoding a well-formed delete from the wire raises TypeError in
the source: decode_ot evaluates `Delete(int(idx_text), int(arg_text))`,
but Delete.__init__ requires the third positional argument `text`, so
the construction of the non-invertible Delete never happens. -/
theorem decode_ot_delete_typeerror :
    parseNat [53] = some 5 ∧ parseNat [51] = some 3 ∧
    decode_ot [100] [53] [51] = .error .typeError :=
  ⟨rfl, rfl, rfl⟩

/-- C8: with a clean shadow holding one previous submission whose id is
(0, editor 1), a submission claiming that exact parent still crashes:
the source compares the integer `edit.parent.id` against the ID object
`shadow.submissions[-1].id`, and Python's fallback to ID.__eq__ reads
`.id` off the integer - AttributeError, never a successful validation
and never a clean BadParent. -/
theorem client_parent_check_crashes :
    (⟨false, ⟨1, .srv⟩, [⟨Op.insert 0 [97], ⟨0, .num 1⟩, ⟨0, .num 0⟩,
        .editorNum 1⟩], [⟨0, .num 1⟩], []⟩ : Shadow).dirty = false ∧
    (⟨false, ⟨1, .srv⟩, [⟨Op.insert 0 [97], ⟨0, .num 1⟩, ⟨0, .num 0⟩,
        .editorNum 1⟩], [⟨0, .num 1⟩], []⟩ : Shadow).submissions ≠ [] ∧
    ((⟨false, ⟨1, .srv⟩, [⟨Op.insert 0 [97], ⟨0, .num 1⟩, ⟨0, .num 0⟩,
        .editorNum 1⟩], [⟨0, .num 1⟩], []⟩ : Shadow).submissions.getLast?).map
      (fun e => e.id.id) = some 0 ∧
    clientParentCheck ⟨false, ⟨1, .srv⟩, [⟨Op.insert 0 [97], ⟨0, .num 1⟩,
        ⟨0, .num 0⟩, .editorNum 1⟩], [⟨0, .num 1⟩], []⟩ 0
      = .error .attributeError :=
  ⟨rfl, by decide, rfl, rfl⟩

/-- C6 counterexample: Delete(0, 1, "a") after Insert(0, "b") is a
conflict (insert at the left edge of the delete), yet the source keeps
self's recovered text, so the result Delete(1, 1, "a") inverts
successfully - refuting "after() results are always non-invertible
whenever a conflict was detected". -/
theorem after_conflict_invertible_counterexample :
    conflicts (Op.delete 0 1 (some [97])) (Op.insert 0 [98]) = true ∧
    Op.after (Op.delete 0 1 (some [97])) (Op.insert 0 [98])
      = some (Op.delete 1 1 (some [97])) ∧
    Op.inverse (Op.delete 1 1 (some [97])) = some (Op.insert 1 [97]) :=
  ⟨by decide, rfl, rfl⟩

/-- C6 amended: when after(self, other) detects a conflict that is not
merely edge-touching (boundaryConflict), any operation it returns is
either an Insert - whose inverse always succeeds - or a Delete with no
recovered text, on which inverse() fails.  Edge-touching conflicts
(insert at either end of a delete; deletes meeting at an endpoint)
keep self's recovered text. -/
theorem after_conflict_noninvertible (a b : Op) (r : Op)
    (hc : conflicts a b = true) (hb : boundaryConflict a b = false)
    (hr : Op.after a b = some r) :
    (∃ i t, r = Op.insert i t) ∨ (∃ i n, r = Op.delete i n none) := by
  cases a with
  | insert si t =>
    left
    cases b with
    | insert oi u =>
      simp only [Op.after] at hr
      split at hr
      · cases hr; exact ⟨_, _, rfl⟩
      · split at hr <;> (cases hr; exact ⟨_, _, rfl⟩)
    | delete oi on2 ty =>
      simp only [Op.after] at hr
      split at hr
      · cases hr; exact ⟨_, _, rfl⟩
      · split at hr <;> (cases hr; exact ⟨_, _, rfl⟩)
  | delete si sn tx =>
    cases b with
    | insert oi u =>
      have hcp : si ≤ oi ∧ oi ≤ si + sn := by
        simp only [conflicts] at hc; simp at hc; omega
      have hbp : oi ≠ si ∧ oi ≠ si + sn := by
        simp only [boundaryConflict] at hb; simpa using hb
      simp only [Op.after] at hr
      rw [if_neg (show ¬ oi > si + sn by omega),
          if_neg (show ¬ oi < si by omega),
          if_neg hbp.1, if_neg hbp.2] at hr
      cases hr
      exact Or.inr ⟨_, _, rfl⟩
    | delete oi on2 ty =>
      have hcp : si ≤ oi + on2 ∧ oi ≤ si + sn := by
        simp only [conflicts] at hc
        split at hc <;> (simp at hc; omega)
      have hbp : oi ≠ si + sn ∧ oi + on2 ≠ si := by
        simp only [boundaryConflict] at hb; simpa using hb
      simp only [Op.after] at hr
      rw [if_neg (show ¬ oi ≥ si + sn by omega),
          if_neg (show ¬ oi + on2 ≤ si by omega)] at hr
      split at hr
      · split at hr
        · simp at hr
        · cases hr; exact Or.inr ⟨_, _, rfl⟩
      · split at hr <;> (cases hr; exact Or.inr ⟨_, _, rfl⟩)

/-- C6 amended witness: Insert(2, "b") strictly inside Delete(1, 2, "a")
is a non-boundary conflict and the transform widens to the
non-invertible Delete(1, 3, None). -/
theorem after_conflict_noninvertible_witness :
    conflicts (Op.delete 1 2 (some [97])) (Op.insert 2 [98]) = true ∧
    boundaryConflict (Op.delete 1 2 (some [97])) (Op.insert 2 [98]) = false ∧
    ((∃ i t, Op.delete 1 3 none = Op.insert i t) ∨
      (∃ i n, Op.delete 1 3 none = Op.delete i n none)) :=
  ⟨by decide, by decide,
   after_conflict_noninvertible (Op.delete 1 2 (some [97])) (Op.insert 2 [98])
     (Op.delete 1 3 none) (by decide) (by decide) rfl⟩

/-- C3 counterexample: the seed scenario S4.  A clean shadow holds the
external Delete(5, 6) in its tail; the client submits Insert(8, "XX").
The double rebase detects the conflict and sets the shadow dirty, yet
new_submission still returns the best-effort transform Insert(5, "XX"),
and submission_atomic appends it to the history (now 3 edits long) and
applies it to the document, which becomes "helloXX" - refuting "no
server-space operation is returned, nothing is appended to H". -/
theorem conflict_submission_rejected_counterexample :
    (⟨[⟨Op.insert 0 [], ⟨0, .srv⟩, ⟨0, .srv⟩, .srvTag⟩,
        ⟨Op.delete 5 6 none, ⟨1, .srv⟩, ⟨0, .srv⟩, .srvTag⟩],
      [104, 101, 108, 108, 111],
      ⟨false, ⟨1, .srv⟩, [], [],
        [⟨Op.delete 5 6 none, ⟨Op.delete 5 6 none, ⟨1, .srv⟩, ⟨0, .srv⟩,
          .srvTag⟩⟩]⟩⟩ : ServerSt).shadow.dirty = false ∧
    submissionAtomic
      ⟨[⟨Op.insert 0 [], ⟨0, .srv⟩, ⟨0, .srv⟩, .srvTag⟩,
        ⟨Op.delete 5 6 none, ⟨1, .srv⟩, ⟨0, .srv⟩, .srvTag⟩],
       [104, 101, 108, 108, 111],
       ⟨false, ⟨1, .srv⟩, [], [],
        [⟨Op.delete 5 6 none, ⟨Op.delete 5 6 none, ⟨1, .srv⟩, ⟨0, .srv⟩,
          .srvTag⟩⟩]⟩⟩
      ⟨Op.insert 8 [88, 88], ⟨0, .num 1⟩, ⟨0, .num 1⟩, .editorNum 1⟩
    = some (⟨[⟨Op.insert 0 [], ⟨0, .srv⟩, ⟨0, .srv⟩, .srvTag⟩,
        ⟨Op.delete 5 6 none, ⟨1, .srv⟩, ⟨0, .srv⟩, .srvTag⟩,
        ⟨Op.insert 5 [88, 88], ⟨2, .srv⟩, ⟨1, .srv⟩, .editorNum 1⟩],
       [104, 101, 108, 108, 111, 88, 88],
       ⟨true, ⟨1, .srv⟩, [], [],
        [⟨Op.delete 5 6 none, ⟨Op.delete 5 6 none, ⟨1, .srv⟩, ⟨0, .srv⟩,
          .srvTag⟩⟩]⟩⟩,
       some (2, Op.insert 5 [88, 88])) :=
  ⟨rfl, rfl⟩

/-- C3 amended: when the double rebase turns a clean shadow dirty, the
edit is indeed not appended to shadow.submissions or
shadow.submission_ids, but the submission is not fully rejected: the
best-effort transformed operation is still returned (it is None exactly
when the rebase annulled the operation, as when a tail Delete subsumes
the submitted Delete), and whenever it is non-None submission_atomic
appends it to the authoritative history and applies it to the document
(on_submission then also broadcasts it). -/
theorem conflict_submission_still_commits (st : ServerSt) (edit : Edit)
    (st2 : ServerSt) (r : Option (Nat × Op))
    (hpar : edit.parent.editor ≠ Editor.num 0)
    (hdirty : st.shadow.dirty = false)
    (hcall : submissionAtomic st edit = some (st2, r))
    (hdirty2 : st2.shadow.dirty = true) :
    st2.shadow.submissions = st.shadow.submissions ∧
    st2.shadow.submissionIds = st.shadow.submissionIds ∧
    ∀ nid op, r = some (nid, op) →
      nid = st.edits.length ∧
      st2.edits = st.edits ++ [⟨op, ⟨nid, .srv⟩, ⟨nid - 1, .srv⟩, edit.submittedId⟩] ∧
      st2.text = Op.apply op st.text := by
  simp only [submissionAtomic] at hcall
  rw [if_neg hpar] at hcall
  cases hns : Shadow.newSubmission st.shadow edit
      (st.edits.drop (st.shadow.lastKnownId.id + 1)) with
  | none => rw [hns] at hcall; exact absurd hcall (by simp)
  | some p =>
    obtain ⟨sh1, r0⟩ := p
    rw [hns] at hcall
    cases r0 with
    | none =>
      replace hcall : some (({ st with shadow := sh1 } : ServerSt),
          (none : Option (Nat × Op))) = some (st2, r) := hcall
      injection hcall with hcall
      injection hcall with h1 h2
      rw [← h1] at hdirty2 ⊢
      rw [← h2]
      obtain ⟨hp1, hp2⟩ := newSubmission_dirty_preserves st.shadow edit _ sh1 none
        hdirty hns hdirty2
      exact ⟨hp1, hp2, fun nid op h => by cases h⟩
    | some op =>
      replace hcall : some ((⟨st.edits ++ [⟨op, ⟨st.edits.length, .srv⟩,
            ⟨st.edits.length - 1, .srv⟩, edit.submittedId⟩],
          Op.apply op st.text, sh1⟩ : ServerSt),
          some (st.edits.length, op)) = some (st2, r) := hcall
      injection hcall with hcall
      injection hcall with h1 h2
      rw [← h1] at hdirty2 ⊢
      rw [← h2]
      obtain ⟨hp1, hp2⟩ := newSubmission_dirty_preserves st.shadow edit _ sh1 (some op)
        hdirty hns hdirty2
      refine ⟨hp1, hp2, fun nid op2 h => ?_⟩
      injection h with h
      injection h with h3 h4
      rw [← h3, ← h4]
      exact ⟨rfl, rfl, rfl⟩

/-- C3 amended witness: the S4 scenario run through the amended theorem:
the dirty-making submission leaves submissions and submission_ids empty
and its transform Insert(5, "XX") is appended as history edit 2. -/
theorem conflict_submission_still_commits_witness :
    ([] : List Edit) = [] ∧ ([] : List ID) = [] ∧
    (2 = 2 ∧
      ([⟨Op.insert 0 [], ⟨0, .srv⟩, ⟨0, .srv⟩, .srvTag⟩,
        ⟨Op.delete 5 6 none, ⟨1, .srv⟩, ⟨0, .srv⟩, .srvTag⟩,
        ⟨Op.insert 5 [88, 88], ⟨2, .srv⟩, ⟨1, .srv⟩, .editorNum 1⟩] : List Edit)
        = [⟨Op.insert 0 [], ⟨0, .srv⟩, ⟨0, .srv⟩, .srvTag⟩,
           ⟨Op.delete 5 6 none, ⟨1, .srv⟩, ⟨0, .srv⟩, .srvTag⟩]
          ++ [⟨Op.insert 5 [88, 88], ⟨2, .srv⟩, ⟨1, .srv⟩, .editorNum 1⟩] ∧
      ([104, 101, 108, 108, 111, 88, 88] : List Nat)
        = Op.apply (Op.insert 5 [88, 88]) [104, 101, 108, 108, 111]) := by
  have h := conflict_submission_still_commits
    ⟨[⟨Op.insert 0 [], ⟨0, .srv⟩, ⟨0, .srv⟩, .srvTag⟩,
      ⟨Op.delete 5 6 none, ⟨1, .srv⟩, ⟨0, .srv⟩, .srvTag⟩],
     [104, 101, 108, 108, 111],
     ⟨false, ⟨1, .srv⟩, [], [],
      [⟨Op.delete 5 6 none, ⟨Op.delete 5 6 none, ⟨1, .srv⟩, ⟨0, .srv⟩,
        .srvTag⟩⟩]⟩⟩
    ⟨Op.insert 8 [88, 88], ⟨0, .num 1⟩, ⟨0, .num 1⟩, .editorNum 1⟩
    ⟨[⟨Op.insert 0 [], ⟨0, .srv⟩, ⟨0, .srv⟩, .srvTag⟩,
      ⟨Op.delete 5 6 none, ⟨1, .srv⟩, ⟨0, .srv⟩, .srvTag⟩,
      ⟨Op.insert 5 [88, 88], ⟨2, .srv⟩, ⟨1, .srv⟩, .editorNum 1⟩],
     [104, 101, 108, 108, 111, 88, 88],
     ⟨true, ⟨1, .srv⟩, [], [],
      [⟨Op.delete 5 6 none, ⟨Op.delete 5 6 none, ⟨1, .srv⟩, ⟨0, .srv⟩,
        .srvTag⟩⟩]⟩⟩
    (some (2, Op.insert 5 [88, 88]))
    (by decide) rfl rfl rfl
  exact ⟨h.1, h.2.1, h.2.2 2 (Op.insert 5 [88, 88]) rfl⟩

/-- C2: the shadow convergence invariant.  For every run of
Shadow.new_submission calls on a clean shadow - each call fed exactly
the server edits appended since the shadow's last_known_id (the echo of
the previous acceptance followed by the external injections), each
injected edit applicable where it landed, and the shadow never turning
dirty - applying shadow.submissions and then shadow.tail to the base
document D0 yields the same byte string as applying the authoritative
history over the same range to D0. -/
theorem shadow_convergence (D0 : List Nat) (s : Shadow) (covered : List Op)
    (echo : Option Edit) (pend : List Edit)
    (h : SimRun D0 s covered echo pend) :
    applyOps ((s.submissions.map fun e => e.ot) ++ (s.tail.map fun t => t.ot)) D0
      = applyOps covered D0 :=
  (simRun_inv D0 h).2.2.1

/-- C2 witness: base document "d"; another client injects Insert(1, "b");
this client submits Insert(0, "a").  The shadow ends with submissions
[Insert(0, "a")] and tail [Insert(2, "b")]; both orders produce "adb". -/
theorem shadow_convergence_witness :
    applyOps [Op.insert 0 [97], Op.insert 2 [98]] [100]
      = applyOps [Op.insert 1 [98], Op.insert 0 [97]] [100] :=
  shadow_convergence [100]
    ⟨false, ⟨1, .srv⟩,
     [⟨Op.insert 0 [97], ⟨0, .num 1⟩, ⟨0, .num 1⟩, .editorNum 1⟩],
     [⟨0, .num 1⟩],
     [⟨Op.insert 2 [98], ⟨Op.insert 1 [98], ⟨1, .srv⟩, ⟨0, .srv⟩, .editorNum 2⟩⟩]⟩
    [Op.insert 1 [98], Op.insert 0 [97]]
    (some ⟨Op.insert 0 [97], ⟨2, .srv⟩, ⟨2, .srv⟩, .editId ⟨0, .num 1⟩⟩)
    []
    (SimRun.submit
      ⟨Op.insert 0 [97], ⟨0, .num 1⟩, ⟨0, .num 1⟩, .editorNum 1⟩
      ⟨false, ⟨1, .srv⟩,
       [⟨Op.insert 0 [97], ⟨0, .num 1⟩, ⟨0, .num 1⟩, .editorNum 1⟩],
       [⟨0, .num 1⟩],
       [⟨Op.insert 2 [98], ⟨Op.insert 1 [98], ⟨1, .srv⟩, ⟨0, .srv⟩, .editorNum 2⟩⟩]⟩
      (Op.insert 0 [97]) ⟨2, .srv⟩
      (SimRun.inject
        ⟨Op.insert 1 [98], ⟨1, .srv⟩, ⟨0, .srv⟩, .editorNum 2⟩ 2
        (SimRun.init ⟨0, .srv⟩) rfl (by decide))
      (by decide) rfl rfl)

/-- C7: the echo drop never happens through the real decode path.  The
pipeline below replays two submissions through Edit.from_line and
submission_atomic: the first edit (id 0 of editor 1, Insert(0, "a")) is
accepted and appended to the history with submitted_id equal to the
bare editor integer 1 - from_line stores `submitted_id=editor` - while
shadow.submission_ids records the full ID (0, editor 1).  On the second
submission the leading element of the pulled server edits is exactly
that echoed acceptance, but the membership test compares the integer 1
against ID objects and never matches, so the echo stays in the tail:
the final shadow tail is [Insert(0, "a")] where the claim (and spec
step 2) require it to have been dropped. -/
theorem echo_edit_not_dropped :
    ((Edit.from_line [48, 58, 48, 58, 48, 58, 105, 58, 48, 58, 97] 1).bind fun e1 =>
      (submissionAtomic
        ⟨[⟨Op.insert 0 [], ⟨0, .srv⟩, ⟨0, .srv⟩, .srvTag⟩], [],
         Shadow.init ⟨0, .srv⟩⟩ e1).bind fun p1 =>
      (Edit.from_line [49, 58, 48, 58, 49, 58, 105, 58, 50, 58, 98] 1).bind fun e2 =>
      (submissionAtomic p1.1 e2).map fun p2 =>
        p2.1.shadow.tail.map fun t => t.ot)
      = some [Op.insert 0 [97]] := rfl
